import Mathlib

/-!
Verification development for the Google Maps image scraper
(`google_maps_image_scraper.py`).  The Python source is shallowly embedded:
pure string manipulation becomes functions on `List Char` / `String`, the
filesystem becomes an association list from paths to contents, the network
becomes an oracle `Nat → Option String` (attempt number ↦ fetched body, or
`none` for a transport failure), and the extraction / retry loops become
structural recursions over finite streams of observed UI events.
-/

/-! ## URL normalizer (lines 596-608, 629, 779, 806 of the source)

The source rewrites `re.sub(r'=w\d+-h\d+', '=w0-h0', url)`.  `digitSpan`
models the greedy atom `\d+` (maximal munch: since a digit can never also
match the following literal `-`, greedy matching with backtracking and
maximal munch agree), `matchDims` models an anchored match of the whole
pattern, and `subDims` models `re.sub`'s left-to-right, non-overlapping
scan.  Digits are modelled as ASCII digits. -/

/-- Maximal leading run of ASCII digits, and the remainder. -/
def digitSpan : List Char → List Char × List Char
  | [] => ([], [])
  | c :: cs =>
    if c.isDigit then (c :: (digitSpan cs).1, (digitSpan cs).2)
    else ([], c :: cs)

/-- Anchored match of `-h\d+`, the tail of the dimension pattern; returns the
remainder after the match. -/
def matchTail (l : List Char) : Option (List Char) :=
  match l with
  | c3 :: c4 :: r2 =>
    if c3 = '-' ∧ c4 = 'h' then
      if (digitSpan r2).1 = [] then none else some (digitSpan r2).2
    else none
  | _ => none

/-- Anchored match of `=w\d+-h\d+` at the head of the list; returns the
remainder after the match. -/
def matchDims (l : List Char) : Option (List Char) :=
  match l with
  | c1 :: c2 :: rest =>
    if c1 = '=' ∧ c2 = 'w' then
      if (digitSpan rest).1 = [] then none else matchTail (digitSpan rest).2
    else none
  | _ => none

/-- Fueled left-to-right scan of `re.sub(r'=w\d+-h\d+', '=w0-h0', ·)`: at each
position, replace an anchored match and resume after it, else keep the
character.  The fuel (instantiated with the input length, which always
suffices) keeps the recursion structural. -/
def subDimsF : Nat → List Char → List Char
  | 0, l => l
  | _ + 1, [] => []
  | fuel + 1, c :: cs =>
    match matchDims (c :: cs) with
    | some rest => '=' :: 'w' :: '0' :: '-' :: 'h' :: '0' :: subDimsF fuel rest
    | none => c :: subDimsF fuel cs

/-- `re.sub(r'=w\d+-h\d+', '=w0-h0', ·)` on character lists. -/
def subDims (l : List Char) : List Char := subDimsF l.length l

/-- The high-resolution canonical form of a URL (also its dedup key):
lines 598, 629, 779, 806 of the source. -/
def normalize_url (s : String) : String := ⟨subDims s.data⟩

/-! ## Filename sanitizer (`_sanitize_filename`, lines 945-961) -/

/-- The characters the source replaces with an underscore:
`re.sub(r'[\\/*?:"<>|]', '_', filename)`. -/
def isBad (c : Char) : Bool :=
  decide (c = '\\' ∨ c = '/' ∨ c = '*' ∨ c = '?' ∨ c = ':' ∨ c = '"' ∨
    c = '<' ∨ c = '>' ∨ c = '|')

/-- Whitespace as matched by the pattern `\s` (modelled over its ASCII
members: space, tab, newline, carriage return, vertical tab, form feed). -/
def pySpace (c : Char) : Bool :=
  decide (c = ' ' ∨ c = '\t' ∨ c = '\n' ∨ c = '\r' ∨ c = Char.ofNat 11 ∨
    c = Char.ofNat 12)

/-- The strip set of `str.strip('. ')`. -/
def dotSpace (c : Char) : Bool := decide (c = '.' ∨ c = ' ')

/-- `re.sub(r'[\\/*?:"<>|]', '_', ·)`. -/
def replaceBad (l : List Char) : List Char :=
  l.map (fun c => if isBad c then '_' else c)

/-- `str.strip(chars)`: drop the characters of the strip set from both ends. -/
def pyStrip (p : Char → Bool) (l : List Char) : List Char :=
  ((l.dropWhile p).reverse.dropWhile p).reverse

/-- Scanner for `re.sub(r'\s+', '_', ·)`: the flag records whether the scan is
inside a whitespace run whose underscore was already emitted. -/
def collapseAux : Bool → List Char → List Char
  | _, [] => []
  | inRun, c :: cs =>
    if pySpace c then
      if inRun then collapseAux true cs else '_' :: collapseAux true cs
    else c :: collapseAux false cs

/-- `re.sub(r'\s+', '_', ·)`: every maximal whitespace run becomes one `_`. -/
def collapseWs (l : List Char) : List Char := collapseAux false l

/-- `_sanitize_filename` (lines 945-961): replace the unsafe characters, strip
leading/trailing periods and spaces, collapse whitespace runs to `_`. -/
def sanitize_filename (s : String) : String :=
  ⟨collapseWs (pyStrip dotSpace (replaceBad s.data))⟩

/-! ## Small string utilities used by the embedding -/

/-- Whether the first list is an initial segment of the second. -/
def startsWith : List Char → List Char → Bool
  | [], _ => true
  | _ :: _, [] => false
  | a :: as, b :: bs => decide (a = b) && startsWith as bs

/-- Whether `needle` occurs contiguously in the list (Python's `in` on
strings). -/
def containsSub (needle : List Char) : List Char → Bool
  | [] => startsWith needle []
  | c :: cs => startsWith needle (c :: cs) || containsSub needle cs

/-- The remainder after the first occurrence of `needle`, if any. -/
def afterSub (needle : List Char) : List Char → Option (List Char)
  | [] => none
  | c :: cs =>
    if startsWith needle (c :: cs) then some ((c :: cs).drop needle.length)
    else afterSub needle cs

/-! ## Destination path of a download (`download_image`, lines 838-853)

`urlparse(url).path` is modelled for the scheme-and-host URL shapes the
scraper handles: after `://` the host runs to the first `/`, and the path
runs from there to the first `?` or `#`.  `unquote` is modelled as per-byte
percent decoding, `os.path.splitext` by CPython's algorithm (the extension
starts at the last dot of the final path segment unless the segment is all
dots up to it). -/

/-- Characters of a URL path up to the first query or fragment delimiter. -/
def takeUntilQF (l : List Char) : List Char :=
  l.takeWhile (fun c => decide (c ≠ '?' ∧ c ≠ '#'))

/-- `urlparse(url).path` for the URL shapes described above. -/
def urlPath (u : List Char) : List Char :=
  match afterSub "://".data u with
  | some rest => takeUntilQF (rest.dropWhile (fun c => decide (c ≠ '/')))
  | none => takeUntilQF u

/-- Value of a hexadecimal digit. -/
def hexVal (c : Char) : Option Nat :=
  if c.isDigit then some (c.toNat - '0'.toNat)
  else if 'a' ≤ c ∧ c ≤ 'f' then some (c.toNat - 'a'.toNat + 10)
  else if 'A' ≤ c ∧ c ≤ 'F' then some (c.toNat - 'A'.toNat + 10)
  else none

/-- `urllib.parse.unquote`, modelled per byte: each valid `%xy` becomes the
character of code `16*x + y`; malformed escapes stay literal. -/
def unquoteL : List Char → List Char
  | '%' :: a :: b :: rest =>
    match hexVal a, hexVal b with
    | some x, some y => Char.ofNat (16 * x + y) :: unquoteL rest
    | _, _ => '%' :: unquoteL (a :: b :: rest)
  | c :: cs => c :: unquoteL cs
  | [] => []

/-- The final `/`-separated segment of a path (`os.path` basename). -/
def lastSegment (l : List Char) : List Char :=
  (l.reverse.takeWhile (fun c => decide (c ≠ '/'))).reverse

/-- The extension part of `os.path.splitext` applied to a basename. -/
def extSplit (base : List Char) : List Char :=
  let revBase := base.reverse
  let afterDot := revBase.takeWhile (fun c => decide (c ≠ '.'))
  if afterDot.length = revBase.length then []
  else
    let pre := base.take (base.length - afterDot.length - 1)
    if pre.any (fun c => decide (c ≠ '.')) then '.' :: afterDot.reverse else []

/-- Extension inference of `download_image` (lines 845-849): the extension of
the unquoted URL path, defaulting to `.jpg` when empty or a bare dot. -/
def extFromUrl (url : String) : String :=
  let e := extSplit (lastSegment (unquoteL (urlPath url.data)))
  if e = [] ∨ e = ['.'] then ".jpg" else ⟨e⟩

/-- The destination file path computed by `download_image` (lines 840-853):
`download_dir/sanitized/sanitized_<index><ext>`. -/
def destPath (dir loc : String) (i : Nat) (url : String) : String :=
  dir ++ "/" ++ sanitize_filename loc ++ "/" ++ sanitize_filename loc ++ "_" ++
    toString i ++ extFromUrl url

/-! ## Download manager (`download_image` lines 826-903,
`download_all_images` lines 905-943)

The filesystem is an association list from paths to file contents; a write
prepends an entry; `os.path.exists` is key membership and `os.path.getsize`
the stored content's length.  The worker pool writes to per-index paths and
shares no other mutable state, so the batch is modelled as the in-order fold
of the per-item operation. -/

/-- Filesystem model: path ↦ content, most recent write first. -/
abbrev Fs := List (String × String)

/-- `os.path.exists` / read: the first entry stored at the path. -/
def fsGet : Fs → String → Option String
  | [], _ => none
  | (k, v) :: rest, p => if k = p then some v else fsGet rest p

/-- The `for retry in range(3)` fetch loop of `download_image`
(lines 864-876): up to three attempts against the oracle; returns the first
successful body together with the number of `requests.get` calls performed.
Exhausting the attempts re-raises, which the enclosing handler turns into a
failed item. -/
def tryFetch (f : Nat → Option String) : Option String × Nat :=
  match f 0 with
  | some c => (some c, 1)
  | none =>
    match f 1 with
    | some c => (some c, 2)
    | none =>
      match f 2 with
      | some c => (some c, 3)
      | none => (none, 3)

/-- `download_image` (lines 826-903) for one URL: compute the destination
path, fetch (the fetch happens before the existence check, exactly as in the
source), then: a fully failed fetch is a failed item; an existing file is a
success without a write; otherwise the body is written and the item succeeds
exactly when the written file is non-empty.  Result: (success flag, new
filesystem, number of `requests.get` calls performed). -/
def download_image (fetch : Nat → Option String) (fs : Fs) (dir loc url : String)
    (i : Nat) : Bool × Fs × Nat :=
  let filepath := destPath dir loc i url
  match tryFetch fetch with
  | (none, k) => (false, fs, k)
  | (some content, k) =>
    if (fsGet fs filepath).isSome then (true, fs, k)
    else
      let fs2 := (filepath, content) :: fs
      if 0 < content.length then (true, fs2, k) else (false, fs2, k)

/-- The body of `download_all_images` from the given 1-based index on:
submit every URL, then count the `True` results.  Result: (number of
successes, final filesystem, number of items processed). -/
def downloadAllAux (fetch : Nat → Nat → Option String) (dir loc : String) :
    Nat → List String → Fs → Nat × Fs × Nat
  | _, [], fs => (0, fs, 0)
  | i, u :: us, fs =>
    let r := download_image (fetch i) fs dir loc u i
    let rest := downloadAllAux fetch dir loc (i + 1) us r.2.1
    ((if r.1 then 1 else 0) + rest.1, rest.2.1, rest.2.2 + 1)

/-- `download_all_images` (lines 905-943): every URL is processed with its
1-based position; a `False` item result is counted, never escalated. -/
def download_all_images (fetch : Nat → Nat → Option String) (urls : List String)
    (dir loc : String) (fs : Fs) : Nat × Fs × Nat :=
  downloadAllAux fetch dir loc 1 urls fs

/-! ## Ledger writes and the extraction loop (lines 166-195, 420-753)

`save_url_to_csv` wraps its single append in `try`/`except` and reports the
outcome as a `Bool`; the append's success is modelled by a write oracle.
The gallery `while True` loop (lines 548-746) is driven by a finite stream
of iteration observations: the candidate `src` values the image selectors
and the script fallback yield this iteration, whether a next control could
be engaged, and whether the iteration was aborted by an exception (the
`except` arms at lines 733-746). -/

/-- `save_url_to_csv` (lines 166-195): the append either happens and the
call returns `True`, or any exception is caught and the call returns
`False`; nothing propagates. -/
def save_url_to_csv (writeOk : Bool) : Bool :=
  if writeOk then true else false

/-- One observed iteration of the gallery loop. -/
structure GalleryStep where
  found : List String
  nextOk : Bool
  exc : Bool

/-- The loop state of `extract_image_urls`: the dedup set (in insertion
order), the CSV index counter (starts at 1), the ledger rows written so far,
and the `consecutive_errors` / `scroll_attempts` / `last_count` counters. -/
structure GState where
  image_urls : List String
  url_index : Nat
  ledger : List (Nat × String)
  cErr : Nat
  scroll : Nat
  lastCount : Nat

/-- Extraction configuration: the `max_images` cap, whether a CSV ledger is
open, and the per-append write oracle (keyed by the index being written). -/
structure GCfg where
  maxImages : Option Nat
  csv : Bool
  writeOk : Nat → Bool

/-- The host marker tested by `"googleusercontent.com" in url`. -/
def googleHost : List Char := "googleusercontent.com".data

/-- The candidate filter of lines 596, 628, 778, 805. -/
def hasGoogle (u : String) : Bool := containsSub googleHost u.data

/-- Processing of one candidate URL inside the loop (lines 596-608): filter
by host, normalize, and if the normalized URL is new, add it to the dedup
set and, with the ledger enabled, append a row at the current index — the
index advances whether or not the append succeeded (lines 607-608). -/
def processUrl (cfg : GCfg) (s : GState) (u : String) : GState :=
  if hasGoogle u then
    let hr := normalize_url u
    if hr ∈ s.image_urls then s
    else
      { s with
        image_urls := s.image_urls ++ [hr]
        ledger :=
          if cfg.csv then
            if save_url_to_csv (cfg.writeOk s.url_index) then
              s.ledger ++ [(s.url_index, hr)]
            else s.ledger
          else s.ledger
        url_index := if cfg.csv then s.url_index + 1 else s.url_index }
  else s

/-- The cap test `if max_images and len(image_urls) >= max_images`
(line 653), including Python's truthiness: a cap of `0` is no cap. -/
def capReached (mi : Option Nat) (n : Nat) : Bool :=
  match mi with
  | none => false
  | some m => decide (m ≠ 0) && decide (m ≤ n)

/-- The stagnation bookkeeping at the end of an iteration (lines 720-731):
`scroll_attempts` is incremented on a stagnant advance and reset otherwise,
`last_count` is refreshed, and the loop stops after 30 stagnant advances.
The state passed in already carries the updated `scroll` field. -/
def iterAdv (s3 : GState) : GState × Bool :=
  if 30 ≤ s3.scroll then ({ s3 with lastCount := s3.image_urls.length }, false)
  else ({ s3 with lastCount := s3.image_urls.length }, true)

/-- The iteration tail after candidate processing (lines 645-731): stop once
the error budget is exhausted (only reachable when nothing was found this
iteration), stop when the cap is reached, stop when no next control can be
engaged, else do the stagnation bookkeeping.  The second component is
whether the loop continues. -/
def iterNext (cfg : GCfg) (st : GalleryStep) (s2 : GState) (fi : Bool) : GState × Bool :=
  if fi = false ∧ 5 ≤ s2.cErr then (s2, false)
  else if capReached cfg.maxImages s2.image_urls.length then (s2, false)
  else if st.nextOk = false then (s2, false)
  else
    iterAdv
      (if s2.image_urls.length = s2.lastCount then { s2 with scroll := s2.scroll + 1 }
       else { s2 with scroll := 0 })

/-- One iteration of the gallery `while True` loop (lines 548-746): an
exception-aborted iteration only increments `consecutive_errors` (the
`except` arms, lines 733-746); otherwise the observed candidates are
processed, the error counter is reset when any googleusercontent candidate
appeared and incremented otherwise, and the iteration tail runs. -/
def iterStep (cfg : GCfg) (st : GalleryStep) (s : GState) : GState × Bool :=
  if st.exc then
    ({ s with cErr := s.cErr + 1 }, !decide (5 ≤ s.cErr + 1))
  else
    iterNext cfg st
      (if st.found.any hasGoogle then { st.found.foldl (processUrl cfg) s with cErr := 0 }
       else
         { st.found.foldl (processUrl cfg) s with
           cErr := (st.found.foldl (processUrl cfg) s).cErr + 1 })
      (st.found.any hasGoogle)

/-- The gallery `while True` loop (lines 548-746), driven by a finite stream
of iteration observations; the stream running out models an unobserved
remainder, returning the state as is. -/
def extract_loop (cfg : GCfg) : List GalleryStep → GState → GState
  | [], s => s
  | st :: rest, s =>
    if (iterStep cfg st s).2 then extract_loop cfg rest (iterStep cfg st s).1
    else (iterStep cfg st s).1

/-- The loop's initial state (lines 420-424, 546). -/
def initG : GState :=
  { image_urls := [], url_index := 1, ledger := [], cErr := 0, scroll := 0,
    lastCount := 0 }

/-- The direct-scan save loop of lines 535-537: the unique URLs of the
fallback are appended with indices `i+1` for `i` in `enumerate`. -/
def save_direct_urls : Nat → List String → List (Nat × String)
  | _, [] => []
  | i, u :: us => (i, u) :: save_direct_urls (i + 1) us

/-- The ledger-independent part of the loop state. -/
def GState.core (s : GState) : List String × Nat × Nat × Nat × Nat :=
  (s.image_urls, s.url_index, s.cErr, s.scroll, s.lastCount)

/-! ## The orchestrator's outer retry loop (`main`, lines 1063-1122)

One pipeline attempt is an oracle value `(success, downloaded_count)`.  The
loop is `while not success and attempts < retry_attempts`, with an early
`break` when an attempt succeeds with a non-zero count or in URL-only mode;
`attempts` only advances on the non-break path.  The fuel argument is
`retry_attempts - attempts`, which the guard makes equivalent. -/

/-- The retry loop body; arguments: remaining attempt budget, current
`success`, current `downloaded_count`, attempts performed so far.  Returns
(attempts performed, final success, final count). -/
def retryAux (res : Nat → Bool × Nat) (onlyCsv : Bool) :
    Nat → Bool → Nat → Nat → Nat × Bool × Nat
  | _, true, count, performed => (performed, true, count)
  | 0, false, count, performed => (performed, false, count)
  | fuel + 1, false, _, performed =>
    let r := res performed
    if r.1 && (decide (0 < r.2) || onlyCsv) then (performed + 1, r.1, r.2)
    else retryAux res onlyCsv fuel r.1 r.2 (performed + 1)

/-- The whole retry loop of `main` (lines 1063-1091), started from
`success = False, downloaded_count = 0, attempts = 0`. -/
def main_retry_loop (res : Nat → Bool × Nat) (onlyCsv : Bool) (retryN : Nat) :
    Nat × Bool × Nat :=
  retryAux res onlyCsv retryN false 0 0

/-- The exit code `main` returns from the loop result (lines 1096-1122):
`0` on success, `1` otherwise. -/
def main_exit_code (r : Nat × Bool × Nat) : Nat := if r.2.1 then 0 else 1

/-- C3 invariant: the CSV index runs one ahead of the dedup set's size, the
ledger's index column is exactly `1..N`, its URL column is the dedup set in
discovery order, and the set has no duplicates. -/
def LedInv (s : GState) : Prop :=
  s.url_index = s.image_urls.length + 1 ∧
  s.ledger.map Prod.fst = List.range' 1 s.image_urls.length ∧
  s.ledger.map Prod.snd = s.image_urls ∧
  s.image_urls.Nodup

/-! ## Lemmas: URL normalizer -/

theorem digitSpan_append (l : List Char) : (digitSpan l).1 ++ (digitSpan l).2 = l := by
  induction l with
  | nil => rfl
  | cons c cs ih =>
    by_cases h : c.isDigit
    · simp only [digitSpan, h, if_true, List.cons_append, ih]
    · simp [digitSpan, h]

theorem digitSpan_fst_digits (l : List Char) : ∀ c ∈ (digitSpan l).1, c.isDigit = true := by
  induction l with
  | nil => intro c hc; simp [digitSpan] at hc
  | cons d ds ih =>
    intro c hc
    by_cases h : d.isDigit
    · simp only [digitSpan, h, if_true, List.mem_cons] at hc
      cases hc with
      | inl h1 => rw [h1]; exact h
      | inr h1 => exact ih c h1
    · simp [digitSpan, h] at hc

theorem digitSpan_snd_head (l : List Char) :
    (digitSpan l).2 = [] ∨ ∃ c cs, (digitSpan l).2 = c :: cs ∧ c.isDigit = false := by
  induction l with
  | nil => left; rfl
  | cons d ds ih =>
    by_cases h : d.isDigit
    · simpa [digitSpan, h] using ih
    · right; exact ⟨d, ds, by simp [digitSpan, h], by simpa using h⟩

theorem digitSpan_of_head (l : List Char)
    (h : l = [] ∨ ∃ c cs, l = c :: cs ∧ c.isDigit = false) : digitSpan l = ([], l) := by
  cases h with
  | inl h => rw [h]; rfl
  | inr h => obtain ⟨c, cs, rfl, hc⟩ := h; simp [digitSpan, hc]

theorem digitSpan_digits_pre (d x : List Char) (hd : ∀ c ∈ d, c.isDigit = true)
    (hx : x = [] ∨ ∃ c cs, x = c :: cs ∧ c.isDigit = false) :
    digitSpan (d ++ x) = (d, x) := by
  induction d with
  | nil => simpa using digitSpan_of_head x hx
  | cons c ds ih =>
    have hc : c.isDigit = true := hd c (by simp)
    have h2 := ih (fun e he => hd e (by simp [he]))
    simp [digitSpan, hc, h2]

theorem digitSpan_snd_len_lt (l : List Char) (h : (digitSpan l).1 ≠ []) :
    (digitSpan l).2.length + 1 ≤ l.length := by
  have h2 := congrArg List.length (digitSpan_append l)
  rw [List.length_append] at h2
  have h3 : 0 < (digitSpan l).1.length := List.length_pos.mpr h
  omega

theorem matchDims_nil : matchDims [] = none := rfl

theorem matchDims_one (c : Char) : matchDims [c] = none := rfl

theorem matchDims_cons (c1 c2 : Char) (rest : List Char) :
    matchDims (c1 :: c2 :: rest) =
      if c1 = '=' ∧ c2 = 'w' then
        if (digitSpan rest).1 = [] then none else matchTail (digitSpan rest).2
      else none := rfl

theorem matchTail_nil : matchTail [] = none := rfl

theorem matchTail_one (c : Char) : matchTail [c] = none := rfl

theorem matchTail_cons (c3 c4 : Char) (r2 : List Char) :
    matchTail (c3 :: c4 :: r2) =
      if c3 = '-' ∧ c4 = 'h' then
        if (digitSpan r2).1 = [] then none else some (digitSpan r2).2
      else none := rfl

theorem matchDims_ne (c : Char) (l : List Char) (h : ¬ c = '=') :
    matchDims (c :: l) = none := by
  cases l with
  | nil => rfl
  | cons d ds => rw [matchDims_cons]; simp [h]

theorem matchDims_shape {l r : List Char} (h : matchDims l = some r) :
    ∃ t, l = '=' :: 'w' :: t := by
  match l with
  | [] => rw [matchDims_nil] at h; cases h
  | [c] => rw [matchDims_one] at h; cases h
  | c1 :: c2 :: rest =>
    rw [matchDims_cons] at h
    by_cases h12 : c1 = '=' ∧ c2 = 'w'
    · exact ⟨rest, by rw [h12.1, h12.2]⟩
    · rw [if_neg h12] at h; cases h

theorem matchDims_struct {rest r : List Char} (h : matchDims ('=' :: 'w' :: rest) = some r) :
    (digitSpan rest).1 ≠ [] ∧ matchTail (digitSpan rest).2 = some r := by
  rw [matchDims_cons, if_pos ⟨rfl, rfl⟩] at h
  by_cases hd : (digitSpan rest).1 = []
  · rw [if_pos hd] at h; cases h
  · rw [if_neg hd] at h; exact ⟨hd, h⟩

theorem matchTail_struct {l r : List Char} (h : matchTail l = some r) :
    ∃ r2, l = '-' :: 'h' :: r2 ∧ (digitSpan r2).1 ≠ [] ∧ (digitSpan r2).2 = r := by
  match l with
  | [] => rw [matchTail_nil] at h; cases h
  | [c] => rw [matchTail_one] at h; cases h
  | c3 :: c4 :: r2 =>
    rw [matchTail_cons] at h
    by_cases h34 : c3 = '-' ∧ c4 = 'h'
    · refine ⟨r2, by rw [h34.1, h34.2], ?_⟩
      by_cases hd : (digitSpan r2).1 = []
      · rw [if_pos h34, if_pos hd] at h; cases h
      · rw [if_pos h34, if_neg hd] at h
        exact ⟨hd, Option.some.inj h⟩
    · rw [if_neg h34] at h; cases h

theorem matchDims_len {l r : List Char} (h : matchDims l = some r) :
    r.length + 6 ≤ l.length := by
  obtain ⟨t, rfl⟩ := matchDims_shape h
  obtain ⟨hne, hmt⟩ := matchDims_struct h
  obtain ⟨r2, heq, hne2, hr⟩ := matchTail_struct hmt
  have h1 := digitSpan_snd_len_lt t hne
  have h2 := digitSpan_snd_len_lt r2 hne2
  have h3 := congrArg List.length heq
  have h4 := congrArg List.length hr
  simp only [List.length_cons] at h3 ⊢
  omega

theorem matchDims_snd_head {l r : List Char} (h : matchDims l = some r) :
    r = [] ∨ ∃ c cs, r = c :: cs ∧ c.isDigit = false := by
  obtain ⟨t, rfl⟩ := matchDims_shape h
  obtain ⟨hne, hmt⟩ := matchDims_struct h
  obtain ⟨r2, heq, hne2, hr⟩ := matchTail_struct hmt
  rw [← hr]
  exact digitSpan_snd_head r2

theorem subDimsF_le : ∀ (f1 f2 : Nat) (l : List Char), l.length ≤ f1 → l.length ≤ f2 →
    subDimsF f1 l = subDimsF f2 l := by
  intro f1
  induction f1 with
  | zero =>
    intro f2 l h1 h2
    have : l = [] := List.eq_nil_of_length_eq_zero (Nat.le_zero.mp h1)
    subst this
    cases f2 <;> rfl
  | succ g ih =>
    intro f2 l h1 h2
    cases l with
    | nil => cases f2 <;> rfl
    | cons c cs =>
      cases f2 with
      | zero => simp at h2
      | succ g2 =>
        cases h : matchDims (c :: cs) with
        | none =>
          simp only [subDimsF, h]
          simp only [List.length_cons] at h1 h2
          rw [ih g2 cs (by omega) (by omega)]
        | some r =>
          simp only [subDimsF, h]
          have hl := matchDims_len h
          simp only [List.length_cons] at h1 h2 hl
          rw [ih g2 r (by omega) (by omega)]

theorem subDims_nil : subDims [] = [] := rfl

theorem subDims_none {c : Char} {cs : List Char} (h : matchDims (c :: cs) = none) :
    subDims (c :: cs) = c :: subDims cs := by
  show subDimsF (cs.length + 1) (c :: cs) = _
  simp only [subDimsF, h]
  rfl

theorem subDims_some {c : Char} {cs rest : List Char} (h : matchDims (c :: cs) = some rest) :
    subDims (c :: cs) = '=' :: 'w' :: '0' :: '-' :: 'h' :: '0' :: subDims rest := by
  show subDimsF (cs.length + 1) (c :: cs) = _
  simp only [subDimsF, h]
  have hl := matchDims_len h
  simp only [List.length_cons] at hl
  rw [subDimsF_le cs.length rest.length rest (by omega) (by omega)]
  rfl

theorem subDims_head (c : Char) (cs : List Char) : ∃ t, subDims (c :: cs) = c :: t := by
  cases h : matchDims (c :: cs) with
  | none => exact ⟨subDims cs, subDims_none h⟩
  | some r =>
    obtain ⟨t, ht⟩ := matchDims_shape h
    have hc : c = '=' := by injection ht
    rw [subDims_some h, hc]
    exact ⟨'w' :: '0' :: '-' :: 'h' :: '0' :: subDims r, rfl⟩

theorem subDims_cons2 (c1 c2 : Char) (cs : List Char) :
    ∃ t, subDims (c1 :: c2 :: cs) = c1 :: c2 :: t := by
  cases h : matchDims (c1 :: c2 :: cs) with
  | none =>
    obtain ⟨t, ht⟩ := subDims_head c2 cs
    exact ⟨t, by rw [subDims_none h, ht]⟩
  | some r =>
    obtain ⟨t, ht⟩ := matchDims_shape h
    have hc1 : c1 = '=' := by injection ht
    have hc2 : c2 = 'w' := by
      injection ht with h1 h2; injection h2
    rw [subDims_some h, hc1, hc2]
    exact ⟨'0' :: '-' :: 'h' :: '0' :: subDims r, rfl⟩

theorem subDims_digits (d x : List Char) (hd : ∀ c ∈ d, c.isDigit = true) :
    subDims (d ++ x) = d ++ subDims x := by
  induction d with
  | nil => simp
  | cons c ds ih =>
    have hc : c.isDigit = true := hd c (by simp)
    have hne : ¬ c = '=' := by
      intro h; rw [h] at hc; exact absurd hc (by decide)
    have hm : matchDims (c :: (ds ++ x)) = none := matchDims_ne _ _ hne
    rw [List.cons_append, subDims_none hm, ih (fun e he => hd e (by simp [he])),
      List.cons_append]

theorem shape_or_head {l : List Char}
    (h : l = [] ∨ ∃ c cs, l = c :: cs ∧ c.isDigit = false) :
    subDims l = [] ∨ ∃ c cs, subDims l = c :: cs ∧ c.isDigit = false := by
  cases h with
  | inl h => rw [h]; left; rfl
  | inr h =>
    obtain ⟨c, cs, rfl, hc⟩ := h
    obtain ⟨t, ht⟩ := subDims_head c cs
    right; exact ⟨c, t, ht, hc⟩

theorem matchTail_np (r1 : List Char) (h : matchTail r1 = none) :
    matchTail (subDims r1) = none := by
  match r1 with
  | [] => rw [subDims_nil]; rfl
  | [x] =>
    rw [subDims_none (matchDims_one x), subDims_nil]
    rfl
  | x :: y :: r2 =>
    by_cases hxy : x = '-' ∧ y = 'h'
    · obtain ⟨rfl, rfl⟩ := hxy
      rw [matchTail_cons, if_pos ⟨rfl, rfl⟩] at h
      have hds : (digitSpan r2).1 = [] := by
        by_cases hd : (digitSpan r2).1 = []
        · exact hd
        · rw [if_neg hd] at h; cases h
      have hr2 : r2 = [] ∨ ∃ c cs, r2 = c :: cs ∧ c.isDigit = false := by
        have := digitSpan_append r2
        rw [hds] at this
        simp only [List.nil_append] at this
        rw [← this]
        exact digitSpan_snd_head r2
      have h1 : subDims ('-' :: 'h' :: r2) = '-' :: 'h' :: subDims r2 := by
        rw [subDims_none (matchDims_ne _ _ (by decide)),
          subDims_none (matchDims_ne _ _ (by decide))]
      rw [h1, matchTail_cons, if_pos ⟨rfl, rfl⟩]
      rw [digitSpan_of_head (subDims r2) (shape_or_head hr2)]
      simp
    · obtain ⟨t, ht⟩ := subDims_cons2 x y r2
      rw [ht, matchTail_cons, if_neg hxy]

theorem matchDims_np (c : Char) (cs : List Char) (h : matchDims (c :: cs) = none) :
    matchDims (c :: subDims cs) = none := by
  by_cases hc : c = '='
  · subst hc
    match cs with
    | [] => rw [subDims_nil]; rfl
    | d :: ds =>
      by_cases hd : d = 'w'
      · subst hd
        have h1 : subDims ('w' :: ds) = 'w' :: subDims ds :=
          subDims_none (matchDims_ne _ _ (by decide))
        rw [h1, matchDims_cons, if_pos ⟨rfl, rfl⟩]
        rw [matchDims_cons, if_pos ⟨rfl, rfl⟩] at h
        by_cases hds : (digitSpan ds).1 = []
        · have hsh : ds = [] ∨ ∃ e es, ds = e :: es ∧ e.isDigit = false := by
            have := digitSpan_append ds
            rw [hds] at this
            simp only [List.nil_append] at this
            rw [← this]
            exact digitSpan_snd_head ds
          rw [digitSpan_of_head (subDims ds) (shape_or_head hsh)]
          simp
        · rw [if_neg hds] at h
          have hsplit := digitSpan_append ds
          have hdig := digitSpan_fst_digits ds
          have hsndh := digitSpan_snd_head ds
          have h2 : subDims ds = (digitSpan ds).1 ++ subDims (digitSpan ds).2 := by
            conv_lhs => rw [← hsplit]
            exact subDims_digits _ _ hdig
          rw [h2, digitSpan_digits_pre _ _ hdig (shape_or_head hsndh)]
          rw [if_neg hds]
          exact matchTail_np _ h
      · obtain ⟨t, ht⟩ := subDims_head d ds
        rw [ht, matchDims_cons]
        simp [hd]
  · exact matchDims_ne _ _ hc

theorem subDims_idem_aux : ∀ (n : Nat) (l : List Char), l.length ≤ n →
    subDims (subDims l) = subDims l := by
  intro n
  induction n with
  | zero =>
    intro l h
    have : l = [] := List.eq_nil_of_length_eq_zero (Nat.le_zero.mp h)
    subst this; rfl
  | succ n ih =>
    intro l hl
    cases l with
    | nil => rfl
    | cons c cs =>
      cases h : matchDims (c :: cs) with
      | none =>
        rw [subDims_none h, subDims_none (matchDims_np c cs h)]
        simp only [List.length_cons] at hl
        rw [ih cs (by omega)]
      | some r =>
        rw [subDims_some h]
        have hrh := matchDims_snd_head h
        have hr6 : matchDims ('=' :: 'w' :: '0' :: '-' :: 'h' :: '0' :: subDims r) =
            some (subDims r) := by
          rw [matchDims_cons, if_pos ⟨rfl, rfl⟩]
          have hd1 : digitSpan ('0' :: '-' :: 'h' :: '0' :: subDims r) =
              (['0'], '-' :: 'h' :: '0' :: subDims r) := by
            have := digitSpan_digits_pre ['0'] ('-' :: 'h' :: '0' :: subDims r)
              (by intro c hc; simp at hc; rw [hc]; decide)
              (Or.inr ⟨'-', 'h' :: '0' :: subDims r, rfl, by decide⟩)
            simpa using this
          rw [hd1]
          simp only [reduceCtorEq, if_false]
          rw [matchTail_cons, if_pos ⟨rfl, rfl⟩]
          have hd2 : digitSpan ('0' :: subDims r) = (['0'], subDims r) := by
            have := digitSpan_digits_pre ['0'] (subDims r)
              (by intro c hc; simp at hc; rw [hc]; decide)
              (shape_or_head hrh)
            simpa using this
          rw [hd2]
          simp
        rw [subDims_some hr6]
        have hlen := matchDims_len h
        simp only [List.length_cons] at hl hlen
        rw [ih r (by omega)]

theorem subDims_idem (l : List Char) : subDims (subDims l) = subDims l :=
  subDims_idem_aux l.length l le_rfl

theorem subDims_id_of_no_match : ∀ (l : List Char),
    (∀ i, i < l.length → matchDims (l.drop i) = none) → subDims l = l := by
  intro l
  induction l with
  | nil => intro _; rfl
  | cons c cs ih =>
    intro h
    have h0 : matchDims (c :: cs) = none := h 0 (by simp)
    rw [subDims_none h0, ih (fun i hi => by
      have := h (i + 1) (by simp only [List.length_cons] at *; omega)
      simpa using this)]

theorem subDims_first_match : ∀ (i : Nat) (l r : List Char),
    matchDims (l.drop i) = some r → (∀ j, j < i → matchDims (l.drop j) = none) →
    subDims l = l.take i ++ '=' :: 'w' :: '0' :: '-' :: 'h' :: '0' :: subDims r := by
  intro i
  induction i with
  | zero =>
    intro l r h _
    cases l with
    | nil => rw [List.drop_zero] at h; rw [matchDims_nil] at h; cases h
    | cons c cs =>
      rw [List.drop_zero] at h
      simpa using subDims_some h
  | succ i ih =>
    intro l r h hj
    cases l with
    | nil => simp only [List.drop_nil] at h; rw [matchDims_nil] at h; cases h
    | cons c cs =>
      have h0 : matchDims (c :: cs) = none := by
        have := hj 0 (by omega)
        simpa using this
      rw [subDims_none h0]
      rw [ih cs r (by simpa using h) (fun j hjj => by
        have := hj (j + 1) (by omega)
        simpa using this)]
      simp

/-! ## Lemmas: filename sanitizer -/

theorem dropWhile_mem {p : Char → Bool} : ∀ {l : List Char} {c : Char},
    c ∈ l.dropWhile p → c ∈ l := by
  intro l
  induction l with
  | nil => intro c h; simp at h
  | cons d ds ih =>
    intro c h
    rw [List.dropWhile_cons] at h
    by_cases hd : p d
    · rw [if_pos hd] at h
      exact List.mem_cons_of_mem d (ih h)
    · rw [if_neg hd] at h
      exact h

theorem dropWhile_head {p : Char → Bool} : ∀ {l : List Char} {c : Char} {cs : List Char},
    l.dropWhile p = c :: cs → p c = false := by
  intro l
  induction l with
  | nil => intro c cs h; simp at h
  | cons d ds ih =>
    intro c cs h
    rw [List.dropWhile_cons] at h
    by_cases hd : p d
    · rw [if_pos hd] at h
      exact ih h
    · rw [if_neg hd] at h
      injection h with h1 _
      rw [← h1]
      simpa using hd

theorem dropWhile_id {p : Char → Bool} {l : List Char}
    (h : ∀ c cs, l = c :: cs → p c = false) : l.dropWhile p = l := by
  cases l with
  | nil => rfl
  | cons c cs =>
    rw [List.dropWhile_cons, h c cs rfl]
    simp

theorem cons_getLast_ne {c : Char} {cs : List Char} (h : cs ≠ []) :
    (c :: cs).getLast? = cs.getLast? := by
  cases cs with
  | nil => exact absurd rfl h
  | cons d ds => exact List.getLast?_cons_cons

theorem dropWhile_getLast {p : Char → Bool} : ∀ {l : List Char} {c : Char} {cs : List Char},
    l.dropWhile p = c :: cs → (l.dropWhile p).getLast? = l.getLast? := by
  intro l
  induction l with
  | nil => intro c cs h; simp at h
  | cons d ds ih =>
    intro c cs h
    rw [List.dropWhile_cons] at h ⊢
    by_cases hd : p d
    · rw [if_pos hd] at h ⊢
      have hne : ds ≠ [] := by
        intro h2; rw [h2] at h; simp at h
      rw [ih h, cons_getLast_ne hne]
    · rw [if_neg hd]

theorem pyStrip_mem {p : Char → Bool} {l : List Char} {c : Char}
    (h : c ∈ pyStrip p l) : c ∈ l := by
  unfold pyStrip at h
  rw [List.mem_reverse] at h
  have h2 := dropWhile_mem h
  rw [List.mem_reverse] at h2
  exact dropWhile_mem h2

theorem pyStrip_last {p : Char → Bool} {l : List Char} {c : Char}
    (h : (pyStrip p l).getLast? = some c) : p c = false := by
  unfold pyStrip at h
  rw [List.getLast?_reverse] at h
  cases h2 : ((l.dropWhile p).reverse).dropWhile p with
  | nil => rw [h2] at h; cases h
  | cons d ds =>
    rw [h2] at h
    injection h with h3
    rw [← h3]
    exact dropWhile_head h2

theorem pyStrip_head {p : Char → Bool} {l : List Char} {c : Char} {cs : List Char}
    (h : pyStrip p l = c :: cs) : p c = false := by
  unfold pyStrip at h
  have h1 : (((l.dropWhile p).reverse.dropWhile p).reverse).head? = some c := by
    rw [h]; rfl
  rw [List.head?_reverse] at h1
  cases h2 : (l.dropWhile p).reverse.dropWhile p with
  | nil => rw [h2] at h1; cases h1
  | cons d ds =>
    rw [dropWhile_getLast h2, List.getLast?_reverse] at h1
    cases h3 : l.dropWhile p with
    | nil => rw [h3] at h1; cases h1
    | cons e es =>
      rw [h3] at h1
      have h4 : e = c := by
        have := List.head?_cons (a := e) (l := es)
        rw [this] at h1
        injection h1
      rw [← h4]
      exact dropWhile_head h3

theorem pyStrip_id {p : Char → Bool} {l : List Char}
    (hh : ∀ c cs, l = c :: cs → p c = false)
    (hl : ∀ c, l.getLast? = some c → p c = false) : pyStrip p l = l := by
  unfold pyStrip
  rw [dropWhile_id hh]
  have h2 : l.reverse.dropWhile p = l.reverse := by
    apply dropWhile_id
    intro c cs hc
    apply hl
    rw [← List.head?_reverse, hc]
    rfl
  rw [h2, List.reverse_reverse]

theorem collapseAux_no_space : ∀ (l : List Char) (b : Bool) (c : Char),
    c ∈ collapseAux b l → pySpace c = false := by
  intro l
  induction l with
  | nil => intro b c h; simp [collapseAux] at h
  | cons d ds ih =>
    intro b c h
    by_cases hd : pySpace d
    · rw [collapseAux, if_pos hd] at h
      cases b with
      | true => exact ih true c h
      | false =>
        simp only [if_false, Bool.false_eq_true, List.mem_cons] at h
        cases h with
        | inl h1 => rw [h1]; decide
        | inr h1 => exact ih true c h1
    · rw [collapseAux, if_neg hd] at h
      rw [List.mem_cons] at h
      cases h with
      | inl h1 => rw [h1]; simpa using hd
      | inr h1 => exact ih false c h1

theorem collapseAux_mem : ∀ (l : List Char) (b : Bool) (c : Char),
    c ∈ collapseAux b l → c = '_' ∨ c ∈ l := by
  intro l
  induction l with
  | nil => intro b c h; simp [collapseAux] at h
  | cons d ds ih =>
    intro b c h
    by_cases hd : pySpace d
    · rw [collapseAux, if_pos hd] at h
      cases b with
      | true =>
        cases ih true c h with
        | inl h1 => exact Or.inl h1
        | inr h1 => exact Or.inr (List.mem_cons_of_mem d h1)
      | false =>
        simp only [if_false, Bool.false_eq_true, List.mem_cons] at h
        cases h with
        | inl h1 => exact Or.inl h1
        | inr h1 =>
          cases ih true c h1 with
          | inl h2 => exact Or.inl h2
          | inr h2 => exact Or.inr (List.mem_cons_of_mem d h2)
    · rw [collapseAux, if_neg hd, List.mem_cons] at h
      cases h with
      | inl h1 => exact Or.inr (by rw [h1]; exact List.mem_cons_self d ds)
      | inr h1 =>
        cases ih false c h1 with
        | inl h2 => exact Or.inl h2
        | inr h2 => exact Or.inr (List.mem_cons_of_mem d h2)

theorem collapseWs_head {l : List Char} {c : Char} {cs : List Char}
    (h : collapseWs l = c :: cs) : c = '_' ∨ ∃ ds, l = c :: ds := by
  cases l with
  | nil => simp [collapseWs, collapseAux] at h
  | cons d ds =>
    unfold collapseWs collapseAux at h
    by_cases hd : pySpace d
    · rw [if_pos hd] at h
      simp only [Bool.false_eq_true, if_false] at h
      injection h with h1 _
      exact Or.inl h1.symm
    · rw [if_neg hd] at h
      injection h with h1 _
      exact Or.inr ⟨ds, by rw [h1]⟩

theorem collapseAux_ne_nil : ∀ {l : List Char}, l ≠ [] → collapseAux false l ≠ [] := by
  intro l h
  cases l with
  | nil => exact absurd rfl h
  | cons d ds =>
    unfold collapseAux
    by_cases hd : pySpace d
    · rw [if_pos hd]; simp
    · rw [if_neg hd]; simp

theorem collapseAux_last : ∀ (l : List Char) (b : Bool) (c : Char),
    (collapseAux b l).getLast? = some c → c = '_' ∨ l.getLast? = some c := by
  intro l
  induction l with
  | nil => intro b c h; simp [collapseAux] at h
  | cons d ds ih =>
    intro b c h
    by_cases hd : pySpace d
    · rw [collapseAux, if_pos hd] at h
      cases b with
      | true =>
        have hne : ds ≠ [] := by
          intro h2; rw [h2] at h; simp [collapseAux] at h
        cases ih true c h with
        | inl h1 => exact Or.inl h1
        | inr h1 => exact Or.inr (by rw [cons_getLast_ne hne]; exact h1)
      | false =>
        simp only [Bool.false_eq_true, if_false] at h
        cases hX : collapseAux true ds with
        | nil =>
          rw [hX] at h
          simp at h
          exact Or.inl h.symm
        | cons x xs =>
          rw [hX, cons_getLast_ne (by simp)] at h
          rw [← hX] at h
          have hne : ds ≠ [] := by
            intro h2; rw [h2] at hX; simp [collapseAux] at hX
          cases ih true c h with
          | inl h1 => exact Or.inl h1
          | inr h1 => exact Or.inr (by rw [cons_getLast_ne hne]; exact h1)
    · rw [collapseAux, if_neg hd] at h
      cases hX : collapseAux false ds with
      | nil =>
        have hds : ds = [] := by
          by_cases h2 : ds = []
          · exact h2
          · exact absurd hX (collapseAux_ne_nil h2)
        rw [hX] at h
        simp at h
        subst hds
        simp
        exact Or.inr h
      | cons x xs =>
        rw [hX, cons_getLast_ne (by simp)] at h
        rw [← hX] at h
        have hne : ds ≠ [] := by
          intro h2; rw [h2] at hX; simp [collapseAux] at hX
        cases ih false c h with
        | inl h1 => exact Or.inl h1
        | inr h1 => exact Or.inr (by rw [cons_getLast_ne hne]; exact h1)

theorem collapseAux_id : ∀ (l : List Char), (∀ c ∈ l, pySpace c = false) →
    collapseAux false l = l := by
  intro l
  induction l with
  | nil => intro _; rfl
  | cons d ds ih =>
    intro h
    have hd : pySpace d = false := h d (by simp)
    rw [collapseAux, hd]
    simp only [Bool.false_eq_true, if_false]
    rw [ih (fun c hc => h c (by simp [hc]))]

theorem replaceBad_no_bad (l : List Char) : ∀ c ∈ replaceBad l, isBad c = false := by
  intro c hc
  unfold replaceBad at hc
  rw [List.mem_map] at hc
  obtain ⟨d, _, hd⟩ := hc
  by_cases h : isBad d
  · rw [if_pos h] at hd; rw [← hd]; decide
  · rw [if_neg h] at hd; rw [← hd]; simpa using h

theorem replaceBad_id {l : List Char} (h : ∀ c ∈ l, isBad c = false) :
    replaceBad l = l := by
  induction l with
  | nil => rfl
  | cons d ds ih =>
    have hd : isBad d = false := h d (by simp)
    unfold replaceBad
    simp only [List.map_cons, hd, Bool.false_eq_true, if_false]
    have := ih (fun c hc => h c (by simp [hc]))
    unfold replaceBad at this
    rw [this]

theorem sanitize_data (s : String) :
    (sanitize_filename s).data = collapseWs (pyStrip dotSpace (replaceBad s.data)) := rfl

theorem sanitize_no_bad (s : String) : ∀ c ∈ (sanitize_filename s).data, isBad c = false := by
  intro c hc
  rw [sanitize_data] at hc
  cases collapseAux_mem _ false c hc with
  | inl h => rw [h]; decide
  | inr h => exact replaceBad_no_bad _ c (pyStrip_mem h)

theorem sanitize_no_space (s : String) : ∀ c ∈ (sanitize_filename s).data, pySpace c = false := by
  intro c hc
  rw [sanitize_data] at hc
  exact collapseAux_no_space _ false c hc

theorem dotSpace_false {c : Char} (h : dotSpace c = false) : c ≠ '.' ∧ c ≠ ' ' := by
  unfold dotSpace at h
  simp only [decide_eq_false_iff_not] at h
  push_neg at h
  exact h

theorem sanitize_head (s : String) : ∀ (c : Char) (cs : List Char),
    (sanitize_filename s).data = c :: cs → c ≠ '.' ∧ c ≠ ' ' := by
  intro c cs h
  rw [sanitize_data] at h
  cases collapseWs_head h with
  | inl h1 => rw [h1]; decide
  | inr h1 =>
    obtain ⟨ds, hds⟩ := h1
    exact dotSpace_false (pyStrip_head hds)

theorem sanitize_last (s : String) : ∀ (c : Char),
    (sanitize_filename s).data.getLast? = some c → c ≠ '.' ∧ c ≠ ' ' := by
  intro c h
  rw [sanitize_data] at h
  cases collapseAux_last _ false c h with
  | inl h1 => rw [h1]; decide
  | inr h1 => exact dotSpace_false (pyStrip_last h1)

/-- C10 core: sanitizing is idempotent at the character-list level. -/
theorem sanitize_idem (s : String) :
    sanitize_filename (sanitize_filename s) = sanitize_filename s := by
  have hbad : ∀ c ∈ (sanitize_filename s).data, isBad c = false := sanitize_no_bad s
  have hsp : ∀ c ∈ (sanitize_filename s).data, pySpace c = false := sanitize_no_space s
  have h1 : replaceBad (sanitize_filename s).data = (sanitize_filename s).data :=
    replaceBad_id hbad
  have h2 : pyStrip dotSpace (sanitize_filename s).data = (sanitize_filename s).data := by
    apply pyStrip_id
    · intro c cs hc
      have := sanitize_head s c cs hc
      unfold dotSpace
      simp only [decide_eq_false_iff_not]
      push_neg
      exact this
    · intro c hc
      have := sanitize_last s c hc
      unfold dotSpace
      simp only [decide_eq_false_iff_not]
      push_neg
      exact this
  have h3 : collapseWs (sanitize_filename s).data = (sanitize_filename s).data :=
    collapseAux_id _ hsp
  show (⟨collapseWs (pyStrip dotSpace (replaceBad (sanitize_filename s).data))⟩ : String) =
    sanitize_filename s
  rw [h1, h2, h3]


/-! ## Lemmas: extraction loop and ledger -/

theorem range'_concat_one (n : Nat) : List.range' 1 (n + 1) = List.range' 1 n ++ [n + 1] := by
  have h : List.range' 1 (n + 1) 1 = List.range' 1 n 1 ++ [1 + 1 * n] :=
    List.range'_concat 1 n
  simpa [Nat.add_comm] using h

theorem processUrl_inv {mi : Option Nat} {s : GState} {u : String} (h : LedInv s) :
    LedInv (processUrl ⟨mi, true, fun _ => true⟩ s u) := by
  unfold processUrl
  by_cases hg : hasGoogle u
  · rw [if_pos hg]
    by_cases hm : normalize_url u ∈ s.image_urls
    · rw [if_pos hm]; exact h
    · rw [if_neg hm]
      obtain ⟨h1, h2, h3, h4⟩ := h
      refine ⟨?_, ?_, ?_, ?_⟩
      · simp [h1]
      · simp only [save_url_to_csv, if_pos, List.map_append, List.map_cons, List.map_nil,
          List.length_append, List.length_cons, List.length_nil]
        rw [h2, h1]
        simpa using (range'_concat_one s.image_urls.length).symm
      · simp only [save_url_to_csv, if_pos, List.map_append, List.map_cons, List.map_nil]
        rw [h3]
      · simp only [List.nodup_append, List.nodup_cons, List.nodup_nil]
        exact ⟨h4, by simp, by simpa [List.disjoint_singleton] using hm⟩
  · rw [if_neg hg]; exact h

theorem foldl_inv {mi : Option Nat} : ∀ (us : List String) (s : GState), LedInv s →
    LedInv (us.foldl (processUrl ⟨mi, true, fun _ => true⟩) s) := by
  intro us
  induction us with
  | nil => intro s h; exact h
  | cons u us ih => intro s h; exact ih _ (processUrl_inv h)

theorem iterAdv_inv {s3 : GState} (h : LedInv s3) : LedInv (iterAdv s3).1 := by
  unfold iterAdv
  split
  · exact h
  · exact h

theorem iterNext_inv {cfg : GCfg} {st : GalleryStep} {s2 : GState} {fi : Bool}
    (h : LedInv s2) : LedInv (iterNext cfg st s2 fi).1 := by
  unfold iterNext
  split
  · exact h
  · split
    · exact h
    · split
      · exact h
      · apply iterAdv_inv
        split
        · exact h
        · exact h

theorem iterStep_inv {mi : Option Nat} {st : GalleryStep} {s : GState} (h : LedInv s) :
    LedInv (iterStep ⟨mi, true, fun _ => true⟩ st s).1 := by
  unfold iterStep
  by_cases he : st.exc
  · rw [if_pos he]; exact h
  · rw [if_neg he]
    apply iterNext_inv
    have hf := @foldl_inv mi st.found s h
    split
    · exact hf
    · exact hf

theorem extract_loop_inv {mi : Option Nat} : ∀ (steps : List GalleryStep) (s : GState),
    LedInv s → LedInv (extract_loop ⟨mi, true, fun _ => true⟩ steps s) := by
  intro steps
  induction steps with
  | nil => intro s h; exact h
  | cons st rest ih =>
    intro s h
    rw [extract_loop]
    split
    · exact ih _ (iterStep_inv h)
    · exact iterStep_inv h

theorem initG_inv : LedInv initG := by
  refine ⟨rfl, rfl, rfl, ?_⟩
  exact List.nodup_nil

theorem save_direct_urls_spec : ∀ (urls : List String) (i : Nat),
    (save_direct_urls i urls).map Prod.fst = List.range' i urls.length ∧
    (save_direct_urls i urls).map Prod.snd = urls := by
  intro urls
  induction urls with
  | nil => intro i; simp [save_direct_urls]
  | cons u us ih =>
    intro i
    have := ih (i + 1)
    simp only [save_direct_urls, List.map_cons, List.length_cons, List.range'_succ]
    exact ⟨by rw [this.1], by rw [this.2]⟩

/-! ## Lemmas: the max-images cap (C6) -/

theorem processUrl_len {cfg : GCfg} {s : GState} {u : String} :
    (processUrl cfg s u).image_urls.length ≤ s.image_urls.length + 1 := by
  unfold processUrl
  by_cases hg : hasGoogle u
  · rw [if_pos hg]
    by_cases hm : normalize_url u ∈ s.image_urls
    · rw [if_pos hm]; omega
    · rw [if_neg hm]; simp
  · rw [if_neg hg]; omega

theorem foldl_len {cfg : GCfg} : ∀ (us : List String) (s : GState),
    (us.foldl (processUrl cfg) s).image_urls.length ≤ s.image_urls.length + us.length := by
  intro us
  induction us with
  | nil => intro s; simp
  | cons u us ih =>
    intro s
    have h1 := ih (processUrl cfg s u)
    have h2 := @processUrl_len cfg s u
    simp only [List.foldl_cons, List.length_cons]
    omega

theorem iterAdv_len {s3 : GState} : (iterAdv s3).1.image_urls.length = s3.image_urls.length := by
  unfold iterAdv
  split <;> rfl

theorem iterNext_len {cfg : GCfg} {st : GalleryStep} {s2 : GState} {fi : Bool} :
    (iterNext cfg st s2 fi).1.image_urls.length = s2.image_urls.length := by
  unfold iterNext
  split
  · rfl
  · split
    · rfl
    · split
      · rfl
      · rw [iterAdv_len]
        split <;> rfl

theorem iterNext_flag {cfg : GCfg} {st : GalleryStep} {s2 : GState} {fi : Bool}
    (h : (iterNext cfg st s2 fi).2 = true) :
    capReached cfg.maxImages s2.image_urls.length = false := by
  unfold iterNext at h
  by_cases hA : fi = false ∧ 5 ≤ s2.cErr
  · rw [if_pos hA] at h; simp at h
  · rw [if_neg hA] at h
    by_cases hB : capReached cfg.maxImages s2.image_urls.length = true
    · rw [if_pos hB] at h; simp at h
    · cases hcap : capReached cfg.maxImages s2.image_urls.length
      · rfl
      · exact absurd hcap hB

theorem iterStep_len {cfg : GCfg} {st : GalleryStep} {s : GState} :
    (iterStep cfg st s).1.image_urls.length ≤ s.image_urls.length + st.found.length := by
  unfold iterStep
  by_cases he : st.exc
  · rw [if_pos he]; simp
  · rw [if_neg he]
    rw [iterNext_len]
    have hf := @foldl_len cfg st.found s
    split
    · simpa using hf
    · simpa using hf

theorem capReached_false_lt {m n : Nat} (hm : 1 ≤ m) (h : capReached (some m) n = false) :
    n < m := by
  by_cases h2 : m ≤ n
  · exfalso
    have e1 : decide (m ≠ 0) = true := by simp; omega
    have e2 : decide (m ≤ n) = true := by simp [h2]
    simp only [capReached] at h
    rw [e1, e2] at h
    simp at h
  · omega

theorem iterStep_continue_lt {m : Nat} {csv : Bool} {w : Nat → Bool} {st : GalleryStep}
    {s : GState} (hm : 1 ≤ m) (hs : s.image_urls.length < m)
    (hc : (iterStep ⟨some m, csv, w⟩ st s).2 = true) :
    (iterStep ⟨some m, csv, w⟩ st s).1.image_urls.length < m := by
  unfold iterStep at hc ⊢
  by_cases he : st.exc
  · rw [if_pos he] at hc ⊢
    simpa using hs
  · rw [if_neg he] at hc ⊢
    have hcap := iterNext_flag hc
    rw [iterNext_len]
    exact capReached_false_lt hm hcap

theorem extract_loop_cap {m : Nat} {csv : Bool} {w : Nat → Bool} {L : Nat} (hm : 1 ≤ m) :
    ∀ (steps : List GalleryStep) (s : GState), s.image_urls.length < m →
      (∀ st ∈ steps, st.found.length ≤ L) →
      (extract_loop ⟨some m, csv, w⟩ steps s).image_urls.length ≤ m - 1 + L := by
  intro steps
  induction steps with
  | nil =>
    intro s hs _
    show s.image_urls.length ≤ m - 1 + L
    omega
  | cons st rest ih =>
    intro s hs hL
    rw [extract_loop]
    by_cases hf : (iterStep ⟨some m, csv, w⟩ st s).2 = true
    · rw [if_pos hf]
      exact ih _ (iterStep_continue_lt hm hs hf) (fun st2 h2 => hL st2 (by simp [h2]))
    · rw [if_neg hf]
      have h1 := @iterStep_len ⟨some m, csv, w⟩ st s
      have h2 := hL st (by simp)
      omega

/-! ## Lemmas: ledger-failure independence (C9) -/

theorem processUrl_core {mi : Option Nat} {csv : Bool} {w wB : Nat → Bool} {s t : GState}
    {u : String} (h : s.core = t.core) :
    (processUrl ⟨mi, csv, w⟩ s u).core = (processUrl ⟨mi, csv, wB⟩ t u).core := by
  have h1 : s.image_urls = t.image_urls := congrArg (fun p => p.1) h
  have h2 : s.url_index = t.url_index := congrArg (fun p => p.2.1) h
  have h3 : s.cErr = t.cErr := congrArg (fun p => p.2.2.1) h
  have h4 : s.scroll = t.scroll := congrArg (fun p => p.2.2.2.1) h
  have h5 : s.lastCount = t.lastCount := congrArg (fun p => p.2.2.2.2) h
  unfold processUrl
  by_cases hg : hasGoogle u
  · rw [if_pos hg, if_pos hg]
    by_cases hm : normalize_url u ∈ s.image_urls
    · have hmt : normalize_url u ∈ t.image_urls := by rw [← h1]; exact hm
      rw [if_pos hm, if_pos hmt]
      exact h
    · have hmt : normalize_url u ∉ t.image_urls := by rw [← h1]; exact hm
      rw [if_neg hm, if_neg hmt]
      simp [GState.core, h1, h2, h3, h4, h5]
  · rw [if_neg hg, if_neg hg]
    exact h

theorem foldl_core {mi : Option Nat} {csv : Bool} {w wB : Nat → Bool} :
    ∀ (us : List String) {s t : GState}, s.core = t.core →
      (us.foldl (processUrl ⟨mi, csv, w⟩) s).core =
        (us.foldl (processUrl ⟨mi, csv, wB⟩) t).core := by
  intro us
  induction us with
  | nil => intro s t h; exact h
  | cons u us ih => intro s t h; exact ih (processUrl_core h)

theorem iterAdv_core {s3 t3 : GState} (h : s3.core = t3.core) :
    (iterAdv s3).1.core = (iterAdv t3).1.core ∧ (iterAdv s3).2 = (iterAdv t3).2 := by
  have h1 : s3.image_urls = t3.image_urls := congrArg (fun p => p.1) h
  have h4 : s3.scroll = t3.scroll := congrArg (fun p => p.2.2.2.1) h
  unfold iterAdv
  by_cases h30 : 30 ≤ s3.scroll
  · rw [if_pos h30, if_pos (h4 ▸ h30)]
    refine ⟨?_, rfl⟩
    simp only [GState.core]
    simp [GState.core] at h
    simp [h1, h]
  · rw [if_neg h30, if_neg (h4 ▸ h30)]
    refine ⟨?_, rfl⟩
    simp only [GState.core]
    simp [GState.core] at h
    simp [h1, h]

theorem iterNext_core {mi : Option Nat} {csv : Bool} {w wB : Nat → Bool} {st : GalleryStep}
    {s2 t2 : GState} {fi : Bool} (h : s2.core = t2.core) :
    (iterNext ⟨mi, csv, w⟩ st s2 fi).1.core = (iterNext ⟨mi, csv, wB⟩ st t2 fi).1.core ∧
    (iterNext ⟨mi, csv, w⟩ st s2 fi).2 = (iterNext ⟨mi, csv, wB⟩ st t2 fi).2 := by
  have h1 : s2.image_urls = t2.image_urls := congrArg (fun p => p.1) h
  have h3 : s2.cErr = t2.cErr := congrArg (fun p => p.2.2.1) h
  have h4 : s2.scroll = t2.scroll := congrArg (fun p => p.2.2.2.1) h
  have h5 : s2.lastCount = t2.lastCount := congrArg (fun p => p.2.2.2.2) h
  have hlen : s2.image_urls.length = t2.image_urls.length := by rw [h1]
  unfold iterNext
  dsimp only
  have hA2 : (fi = false ∧ 5 ≤ t2.cErr) ↔ (fi = false ∧ 5 ≤ s2.cErr) := by rw [h3]
  by_cases hA : fi = false ∧ 5 ≤ s2.cErr
  · rw [if_pos hA, if_pos (hA2.mpr hA)]
    exact ⟨h, rfl⟩
  · rw [if_neg hA, if_neg (fun h2 => hA (hA2.mp h2))]
    by_cases hB : capReached mi s2.image_urls.length = true
    · have hBt : capReached mi t2.image_urls.length = true := by rw [← hlen]; exact hB
      rw [if_pos hB, if_pos hBt]
      exact ⟨h, rfl⟩
    · have hBt : ¬ capReached mi t2.image_urls.length = true := by rw [← hlen]; exact hB
      rw [if_neg hB, if_neg hBt]
      by_cases hC : st.nextOk = false
      · rw [if_pos hC, if_pos hC]
        exact ⟨h, rfl⟩
      · rw [if_neg hC, if_neg hC]
        apply iterAdv_core
        by_cases hD : s2.image_urls.length = s2.lastCount
        · have hDt : t2.image_urls.length = t2.lastCount := by rw [← hlen, ← h5]; exact hD
          rw [if_pos hD, if_pos hDt]
          simp [GState.core] at h ⊢
          simp [h1, h3, h4, h]
        · have hDt : ¬ t2.image_urls.length = t2.lastCount := by rw [← hlen, ← h5]; exact hD
          rw [if_neg hD, if_neg hDt]
          simp [GState.core] at h ⊢
          simp [h1, h3, h]

theorem iterStep_core {mi : Option Nat} {csv : Bool} {w wB : Nat → Bool} {st : GalleryStep}
    {s t : GState} (h : s.core = t.core) :
    (iterStep ⟨mi, csv, w⟩ st s).1.core = (iterStep ⟨mi, csv, wB⟩ st t).1.core ∧
    (iterStep ⟨mi, csv, w⟩ st s).2 = (iterStep ⟨mi, csv, wB⟩ st t).2 := by
  have h3 : s.cErr = t.cErr := congrArg (fun p => p.2.2.1) h
  unfold iterStep
  by_cases he : st.exc
  · rw [if_pos he, if_pos he]
    constructor
    · simp [GState.core] at h ⊢
      simp [h3, h]
    · rw [h3]
  · rw [if_neg he, if_neg he]
    apply iterNext_core
    have hf : (st.found.foldl (processUrl ⟨mi, csv, w⟩) s).core =
        (st.found.foldl (processUrl ⟨mi, csv, wB⟩) t).core := foldl_core st.found h
    have hf3 : (st.found.foldl (processUrl ⟨mi, csv, w⟩) s).cErr =
        (st.found.foldl (processUrl ⟨mi, csv, wB⟩) t).cErr :=
      congrArg (fun p => p.2.2.1) hf
    by_cases hany : st.found.any hasGoogle = true
    · rw [if_pos hany, if_pos hany]
      simp [GState.core] at hf ⊢
      simp [hf]
    · rw [if_neg hany, if_neg hany]
      simp [GState.core] at hf ⊢
      simp [hf3, hf]

theorem extract_loop_core {mi : Option Nat} {csv : Bool} {w wB : Nat → Bool} :
    ∀ (steps : List GalleryStep) {s t : GState}, s.core = t.core →
      (extract_loop ⟨mi, csv, w⟩ steps s).core =
        (extract_loop ⟨mi, csv, wB⟩ steps t).core := by
  intro steps
  induction steps with
  | nil => intro s t h; exact h
  | cons st rest ih =>
    intro s t h
    rw [extract_loop, extract_loop]
    have hc := @iterStep_core mi csv w wB st s t h
    by_cases hf : (iterStep ⟨mi, csv, w⟩ st s).2 = true
    · rw [if_pos hf, if_pos (hc.2 ▸ hf)]
      exact ih hc.1
    · rw [if_neg hf, if_neg (hc.2 ▸ hf)]
      exact hc.1

/-! ## Lemmas: download manager (C1, C7) -/

theorem tryFetch_pos (f : Nat → Option String) : 1 ≤ (tryFetch f).2 := by
  unfold tryFetch
  cases f 0
  · cases f 1
    · cases f 2 <;> simp
    · simp
  · simp

theorem download_image_exists {fetch : Nat → Option String} {fs : Fs} {dir loc url : String}
    {i : Nat} {ct : String} (hf : (tryFetch fetch).1 = some ct)
    (he : (fsGet fs (destPath dir loc i url)).isSome = true) :
    download_image fetch fs dir loc url i = (true, fs, (tryFetch fetch).2) := by
  unfold download_image
  cases htf : tryFetch fetch with
  | mk o k =>
    rw [htf] at hf
    simp only at hf
    subst hf
    simp only [he, if_pos]

theorem download_image_fail {fetch : Nat → Option String} {fs : Fs} {dir loc url : String}
    {i : Nat} (hf : (tryFetch fetch).1 = none) :
    download_image fetch fs dir loc url i = (false, fs, (tryFetch fetch).2) := by
  unfold download_image
  cases htf : tryFetch fetch with
  | mk o k =>
    rw [htf] at hf
    simp only at hf
    subst hf
    rfl

theorem download_image_ok {fetch : Nat → Option String} {fs : Fs} {dir loc url : String}
    {i : Nat} {ct : String} (hf : (tryFetch fetch).1 = some ct) (hct : 0 < ct.length) :
    (download_image fetch fs dir loc url i).1 = true := by
  unfold download_image
  cases htf : tryFetch fetch with
  | mk o k =>
    rw [htf] at hf
    simp only at hf
    subst hf
    by_cases he : (fsGet fs (destPath dir loc i url)).isSome = true
    · simp [he]
    · simp only [Bool.not_eq_true] at he
      simp [he, hct]

theorem download_image_mono {fetch : Nat → Option String} {fs : Fs} {dir loc url : String}
    {i : Nat} {q v : String} (h : fsGet fs q = some v) :
    fsGet (download_image fetch fs dir loc url i).2.1 q = some v := by
  unfold download_image
  cases htf : tryFetch fetch with
  | mk o k =>
    cases o with
    | none => exact h
    | some ct =>
      by_cases he : (fsGet fs (destPath dir loc i url)).isSome = true
      · simp only [he, if_pos]
        exact h
      · have hne : ¬ destPath dir loc i url = q := by
          intro h2
          rw [h2, h] at he
          simp at he
        by_cases hct : 0 < ct.length
        · simp only [he, if_neg, hct, if_pos, Bool.false_eq_true]
          show fsGet ((destPath dir loc i url, ct) :: fs) q = some v
          unfold fsGet
          rw [if_neg hne]
          exact h
        · simp only [he, if_neg, hct, Bool.false_eq_true]
          show fsGet ((destPath dir loc i url, ct) :: fs) q = some v
          unfold fsGet
          rw [if_neg hne]
          exact h

theorem download_image_written {fetch : Nat → Option String} {fs : Fs} {dir loc url : String}
    {i : Nat} {ct : String} (hf : (tryFetch fetch).1 = some ct) :
    (fsGet (download_image fetch fs dir loc url i).2.1 (destPath dir loc i url)).isSome = true := by
  unfold download_image
  cases htf : tryFetch fetch with
  | mk o k =>
    rw [htf] at hf
    simp only at hf
    subst hf
    by_cases he : (fsGet fs (destPath dir loc i url)).isSome = true
    · simp only [he, if_pos]
    · by_cases hct : 0 < ct.length
      · simp only [he, if_neg, hct, if_pos, Bool.false_eq_true]
        show (fsGet ((destPath dir loc i url, ct) :: fs) (destPath dir loc i url)).isSome = true
        unfold fsGet
        rw [if_pos rfl]
        rfl
      · simp only [he, if_neg, hct, Bool.false_eq_true]
        show (fsGet ((destPath dir loc i url, ct) :: fs) (destPath dir loc i url)).isSome = true
        unfold fsGet
        rw [if_pos rfl]
        rfl

theorem downloadAllAux_processed (fetch : Nat → Nat → Option String) (dir loc : String) :
    ∀ (us : List String) (i : Nat) (fs : Fs),
      (downloadAllAux fetch dir loc i us fs).2.2 = us.length := by
  intro us
  induction us with
  | nil => intro i fs; rfl
  | cons u us ih =>
    intro i fs
    simp only [downloadAllAux, List.length_cons]
    rw [ih]

theorem downloadAllAux_one_fail (fetch : Nat → Nat → Option String) (dir loc : String)
    (j : Nat) (hj : ∀ k, fetch j k = none) :
    ∀ (us : List String) (i : Nat) (fs : Fs),
      (∀ p, i ≤ p → p < i + us.length → p ≠ j →
        ∃ ct, (tryFetch (fetch p)).1 = some ct ∧ 0 < ct.length) →
      ((i ≤ j ∧ j < i + us.length →
          (downloadAllAux fetch dir loc i us fs).1 = us.length - 1) ∧
       (¬ (i ≤ j ∧ j < i + us.length) →
          (downloadAllAux fetch dir loc i us fs).1 = us.length)) := by
  intro us
  induction us with
  | nil =>
    intro i fs _
    constructor
    · intro h; simp at h; omega
    · intro _; rfl
  | cons u us ih =>
    intro i fs hok
    have hrec := fun fs2 => ih (i + 1) fs2 (fun p h1 h2 h3 =>
      hok p (by omega) (by simp only [List.length_cons] at *; omega) h3)
    by_cases hij : i = j
    · subst hij
      have hfail : (tryFetch (fetch i)).1 = none := by
        unfold tryFetch
        rw [hj 0, hj 1, hj 2]
      have hitem := @download_image_fail (fetch i) fs dir loc u i hfail
      simp only [downloadAllAux, hitem, List.length_cons]
      constructor
      · intro _
        have h2 := (hrec fs).2 (by omega)
        rw [h2]
        simp
      · intro h2
        exfalso
        apply h2
        constructor
        · omega
        · omega
    · obtain ⟨ct, hct1, hct2⟩ := hok i (by omega) (by simp only [List.length_cons] at *; omega) hij
      have hitem := @download_image_ok (fetch i) fs dir loc u i ct hct1 hct2
      simp only [downloadAllAux, List.length_cons]
      rw [hitem]
      constructor
      · intro hwin
        have hw2 : (i + 1) ≤ j ∧ j < (i + 1) + us.length := by
          omega
        have h2 := (hrec ((download_image (fetch i) fs dir loc u i).2.1)).1 hw2
        rw [h2]
        show 1 + (us.length - 1) = us.length + 1 - 1
        omega
      · intro hwin
        have hw2 : ¬ ((i + 1) ≤ j ∧ j < (i + 1) + us.length) := by
          omega
        have h2 := (hrec ((download_image (fetch i) fs dir loc u i).2.1)).2 hw2
        rw [h2]
        show 1 + us.length = us.length + 1
        omega

theorem downloadAllAux_all_ok (fetch : Nat → Nat → Option String) (dir loc : String) :
    ∀ (us : List String) (i : Nat) (fs : Fs),
      (∀ p, i ≤ p → p < i + us.length →
        ∃ ct, (tryFetch (fetch p)).1 = some ct ∧ 0 < ct.length) →
      (downloadAllAux fetch dir loc i us fs).1 = us.length ∧
      (∀ q v, fsGet fs q = some v →
        fsGet (downloadAllAux fetch dir loc i us fs).2.1 q = some v) ∧
      (∀ k (hk : k < us.length),
        (fsGet (downloadAllAux fetch dir loc i us fs).2.1
          (destPath dir loc (i + k) (us.get ⟨k, hk⟩))).isSome = true) := by
  intro us
  induction us with
  | nil =>
    intro i fs _
    refine ⟨rfl, fun q v h => h, fun k hk => by simp at hk⟩
  | cons u us ih =>
    intro i fs hok
    obtain ⟨ct, hct1, hct2⟩ := hok i (by omega) (by simp only [List.length_cons] at *; omega)
    have hitem := @download_image_ok (fetch i) fs dir loc u i ct hct1 hct2
    have hrec := ih (i + 1) (download_image (fetch i) fs dir loc u i).2.1
      (fun p h1 h2 => hok p (by omega) (by simp only [List.length_cons] at *; omega))
    simp only [downloadAllAux, List.length_cons]
    rw [hitem]
    refine ⟨by rw [hrec.1]; simp [Nat.add_comm], ?_, ?_⟩
    · intro q v h
      exact hrec.2.1 q v (download_image_mono h)
    · intro k hk
      cases k with
      | zero =>
        have hw := @download_image_written (fetch i) fs dir loc u i ct hct1
        simp only [List.get]
        cases ho : fsGet (download_image (fetch i) fs dir loc u i).2.1
            (destPath dir loc (i + 0) u) with
        | none =>
          exfalso
          rw [Nat.add_zero] at ho
          rw [ho] at hw
          simp at hw
        | some v =>
          have := hrec.2.1 _ _ ho
          rw [this]
          rfl
      | succ k =>
        have hk2 : k < us.length := by omega
        have := hrec.2.2 k hk2
        have harith : i + 1 + k = i + (k + 1) := by omega
        rw [harith] at this
        simpa using this

theorem downloadAllAux_all_exist (fetch : Nat → Nat → Option String) (dir loc : String) :
    ∀ (us : List String) (i : Nat) (fs : Fs),
      (∀ p, i ≤ p → p < i + us.length → ∃ ct, (tryFetch (fetch p)).1 = some ct) →
      (∀ k (hk : k < us.length),
        (fsGet fs (destPath dir loc (i + k) (us.get ⟨k, hk⟩))).isSome = true) →
      downloadAllAux fetch dir loc i us fs = (us.length, fs, us.length) := by
  intro us
  induction us with
  | nil => intro i fs _ _; rfl
  | cons u us ih =>
    intro i fs hok hex
    obtain ⟨ct, hct⟩ := hok i (by omega) (by simp only [List.length_cons] at *; omega)
    have he0 := hex 0 (by simp only [List.length_cons] at *; omega)
    simp only [List.get, Nat.add_zero] at he0
    have hitem := @download_image_exists (fetch i) fs dir loc u i ct hct he0
    simp only [downloadAllAux, hitem, List.length_cons]
    have hrec := ih (i + 1) fs
      (fun p h1 h2 => hok p (by omega) (by simp only [List.length_cons] at *; omega))
      (fun k hk => by
        have := hex (k + 1) (by simp only [List.length_cons] at *; omega)
        have harith : i + (k + 1) = i + 1 + k := by omega
        rw [harith] at this
        simpa using this)
    rw [hrec]
    simp [Nat.add_comm]

/-! ## Lemmas: the outer retry loop (C4, C5) -/

theorem retryAux_all_fail (res : Nat → Bool × Nat) (onlyCsv : Bool)
    (h : ∀ k, (res k).1 = false) :
    ∀ (fuel c p : Nat),
      (retryAux res onlyCsv fuel false c p).1 = p + fuel ∧
      (retryAux res onlyCsv fuel false c p).2.1 = false := by
  intro fuel
  induction fuel with
  | zero => intro c p; exact ⟨rfl, rfl⟩
  | succ fuel ih =>
    intro c p
    rw [retryAux]
    have hr : (res p).1 = false := h p
    rw [hr]
    simp only [Bool.false_and, Bool.false_eq_true, if_false]
    have := ih (res p).2 (p + 1)
    refine ⟨?_, this.2⟩
    rw [this.1]
    omega

theorem retryAux_first_success (res : Nat → Bool × Nat) (onlyCsv : Bool)
    (fuel : Nat) (c : Nat) (h : (res 0).1 = true) :
    retryAux res onlyCsv (fuel + 1) false c 0 = (1, true, (res 0).2) := by
  rw [retryAux]
  by_cases hbr : ((res 0).1 && (decide (0 < (res 0).2) || onlyCsv)) = true
  · rw [if_pos hbr]
    rw [h]
  · rw [if_neg hbr]
    rw [h]
    rw [retryAux]

theorem retryAux_early_success (res : Nat → Bool × Nat) (onlyCsv : Bool) :
    ∀ (fuel : Nat) (s : Bool) (c p : Nat),
      (retryAux res onlyCsv fuel s c p).1 < p + fuel →
      (retryAux res onlyCsv fuel s c p).2.1 = true := by
  intro fuel
  induction fuel with
  | zero =>
    intro s c p h
    cases s with
    | true => rfl
    | false => simp [retryAux] at h
  | succ fuel ih =>
    intro s c p h
    cases s with
    | true => rfl
    | false =>
      rw [retryAux] at h ⊢
      by_cases hbr : ((res p).1 && (decide (0 < (res p).2) || onlyCsv)) = true
      · rw [if_pos hbr] at h ⊢
        exact (Bool.and_eq_true_iff.mp hbr).1
      · rw [if_neg hbr] at h ⊢
        exact ih _ _ _ (by omega)

/-! ## The claims -/

/-- C1, counterexample to the claim as stated: for a URL whose destination
file (here `d/p/p_1.jpg`, computed by `destPath`) already exists before the
item's download begins, `download_image` does perform a network fetch — the
fetch count is 1, not the 0 the claim's "without performing any network
fetch" requires — because the `requests.get` retry loop (lines 864-876)
runs before the existence check (line 879). -/
theorem claim_C1_counterexample :
    download_image (fun _ => some "y") [("d/p/p_1.jpg", "x")] "d" "p" "http://h/a.jpg" 1 =
      (true, [("d/p/p_1.jpg", "x")], 1) ∧
    ¬ (download_image (fun _ => some "y") [("d/p/p_1.jpg", "x")] "d" "p" "http://h/a.jpg" 1).2.2
        = 0 := by
  constructor
  · decide
  · decide

/-- C1, amended: when the destination file already exists, `download_image`
returns success and leaves the filesystem unchanged, but only after
performing its fetch (at least one `requests.get` call).  Consequently a
second run of `download_all_images` over the same URL list and destination
(all fetches succeeding with non-empty bodies) leaves the on-disk content
identical and counts every item as a success — each item re-fetched, not
skipped. -/
theorem claim_C1_amended :
    (∀ (fetch : Nat → Option String) (fs : Fs) (dir loc url : String) (i : Nat) (ct : String),
      (tryFetch fetch).1 = some ct →
      (fsGet fs (destPath dir loc i url)).isSome = true →
      download_image fetch fs dir loc url i = (true, fs, (tryFetch fetch).2) ∧
        1 ≤ (tryFetch fetch).2) ∧
    (∀ (fetch : Nat → Nat → Option String) (urls : List String) (dir loc : String),
      (∀ p, ∃ ct, (tryFetch (fetch p)).1 = some ct ∧ 0 < ct.length) →
      download_all_images fetch urls dir loc
          (download_all_images fetch urls dir loc []).2.1 =
        (urls.length, (download_all_images fetch urls dir loc []).2.1, urls.length)) := by
  constructor
  · intro fetch fs dir loc url i ct hf he
    exact ⟨download_image_exists hf he, tryFetch_pos fetch⟩
  · intro fetch urls dir loc hok
    have h1 := downloadAllAux_all_ok fetch dir loc urls 1 []
      (fun p _ _ => hok p)
    exact downloadAllAux_all_exist fetch dir loc urls 1 _
      (fun p _ _ => ⟨(hok p).choose, (hok p).choose_spec.1⟩)
      (fun k hk => h1.2.2 k hk)

/-- C1, witness: a concrete one-URL batch run twice; the second run leaves
the filesystem of the first run unchanged and reports one success. -/
theorem claim_C1_witness :
    download_all_images (fun _ _ => some "c") ["http://h/a.jpg"] "d" "L"
        (download_all_images (fun _ _ => some "c") ["http://h/a.jpg"] "d" "L" []).2.1 =
      (1, (download_all_images (fun _ _ => some "c") ["http://h/a.jpg"] "d" "L" []).2.1, 1) :=
  claim_C1_amended.2 (fun _ _ => some "c") ["http://h/a.jpg"] "d" "L"
    (fun _ => ⟨"c", rfl, by decide⟩)

/-- C2: the URL normalizer `re.sub(r'=w\d+-h\d+', '=w0-h0', ·)` is a pure
projection: (1) at the first matching position the dimension segment is
rewritten to `=w0-h0` and the scan continues after it; (2) a URL with no
matching segment passes through unchanged; (3) normalizing twice equals
normalizing once; (4) two URLs identical except for the digits of the
segment share one dedup key. -/
theorem claim_C2 :
    (∀ (i : Nat) (l r : List Char),
      matchDims (l.drop i) = some r → (∀ j, j < i → matchDims (l.drop j) = none) →
      subDims l = l.take i ++ '=' :: 'w' :: '0' :: '-' :: 'h' :: '0' :: subDims r) ∧
    (∀ l : List Char, (∀ i, i < l.length → matchDims (l.drop i) = none) → subDims l = l) ∧
    (∀ l : List Char, subDims (subDims l) = subDims l) ∧
    normalize_url "https://lh5.googleusercontent.com/p/X=w100-h100-k-no" =
      normalize_url "https://lh5.googleusercontent.com/p/X=w999-h999-k-no" := by
  refine ⟨subDims_first_match, subDims_id_of_no_match, subDims_idem, ?_⟩
  decide

/-- C2, witness: the rewrite equation at a concrete URL whose dimension
segment starts at position 5, and pass-through of a URL with no segment. -/
theorem claim_C2_witness :
    subDims "abcde=w12-h34xyz".data =
      "abcde=w12-h34xyz".data.take 5 ++
        '=' :: 'w' :: '0' :: '-' :: 'h' :: '0' :: subDims "xyz".data ∧
    subDims "https://host/img".data = "https://host/img".data :=
  ⟨claim_C2.1 5 "abcde=w12-h34xyz".data "xyz".data (by decide) (by decide),
   claim_C2.2.1 "https://host/img".data (by decide)⟩

/-- C3: with the ledger enabled and every append succeeding, the indices of
the rows written by the gallery loop are exactly `1..N` (no gaps, no
repeats) where `N` is the number of unique discovered URLs, each unique URL
is appended exactly once in discovery order, and the same holds for the
direct-scan fallback's save loop over its unique URL list. -/
theorem claim_C3 :
    (∀ (mi : Option Nat) (steps : List GalleryStep),
      (extract_loop ⟨mi, true, fun _ => true⟩ steps initG).ledger.map Prod.fst =
        List.range' 1 (extract_loop ⟨mi, true, fun _ => true⟩ steps initG).image_urls.length ∧
      (extract_loop ⟨mi, true, fun _ => true⟩ steps initG).ledger.map Prod.snd =
        (extract_loop ⟨mi, true, fun _ => true⟩ steps initG).image_urls ∧
      (extract_loop ⟨mi, true, fun _ => true⟩ steps initG).image_urls.Nodup) ∧
    (∀ urls : List String,
      (save_direct_urls 1 urls).map Prod.fst = List.range' 1 urls.length ∧
      (save_direct_urls 1 urls).map Prod.snd = urls) := by
  constructor
  · intro mi steps
    have h := @extract_loop_inv mi steps initG initG_inv
    exact ⟨h.2.1, h.2.2.1, h.2.2.2⟩
  · intro urls
    exact save_direct_urls_spec urls 1

/-- C4, counterexample to the claim as stated: an attempt that succeeds with
zero images, URL-only mode off and two attempts of budget left, is followed
by no further attempt — the loop performs exactly one attempt, because the
`while not success` guard (line 1067) exits on any success even though the
`break` (line 1077) did not fire. -/
theorem claim_C4_counterexample :
    (main_retry_loop (fun _ => (true, 0)) false 3).1 = 1 ∧
    ¬ 2 ≤ (main_retry_loop (fun _ => (true, 0)) false 3).1 := by
  constructor
  · decide
  · decide

/-- C4, amended: the outer loop stops early on the first successful attempt
regardless of its image count — the `break` fires only on success with a
non-zero count (or in URL-only mode), but the loop guard also exits on any
success, so a first attempt that succeeds ends the run with exactly one
attempt performed; and whenever the loop stops with budget left, the run
was successful. -/
theorem claim_C4_amended :
    (∀ (res : Nat → Bool × Nat) (onlyCsv : Bool) (retryN : Nat),
      1 ≤ retryN → (res 0).1 = true →
      main_retry_loop res onlyCsv retryN = (1, true, (res 0).2)) ∧
    (∀ (res : Nat → Bool × Nat) (onlyCsv : Bool) (retryN : Nat),
      (main_retry_loop res onlyCsv retryN).1 < retryN →
      (main_retry_loop res onlyCsv retryN).2.1 = true) := by
  constructor
  · intro res onlyCsv retryN h1 h2
    cases retryN with
    | zero => omega
    | succ fuel => exact retryAux_first_success res onlyCsv fuel 0 h2
  · intro res onlyCsv retryN h
    exact retryAux_early_success res onlyCsv retryN false 0 0 (by simpa using h)

/-- C4, witness: a first attempt succeeding with five images ends the loop
after exactly one attempt. -/
theorem claim_C4_witness :
    main_retry_loop (fun _ => (true, 5)) false 3 = (1, true, 5) :=
  claim_C4_amended.1 (fun _ => (true, 5)) false 3 (by decide) rfl

/-- C5: if every pipeline attempt fails, the orchestrator performs exactly
`retryN` attempts — never more — ends unsuccessfully, and `main` returns
the terminal failure exit code 1. -/
theorem claim_C5 :
    ∀ (res : Nat → Bool × Nat) (onlyCsv : Bool) (retryN : Nat),
      (∀ k, (res k).1 = false) →
      (main_retry_loop res onlyCsv retryN).1 = retryN ∧
      (main_retry_loop res onlyCsv retryN).2.1 = false ∧
      main_exit_code (main_retry_loop res onlyCsv retryN) = 1 := by
  intro res onlyCsv retryN h
  have h2 := retryAux_all_fail res onlyCsv h retryN 0 0
  have e1 : (main_retry_loop res onlyCsv retryN).1 = retryN := by
    show (retryAux res onlyCsv retryN false 0 0).1 = retryN
    rw [h2.1]
    omega
  have e2 : (main_retry_loop res onlyCsv retryN).2.1 = false := h2.2
  refine ⟨e1, e2, ?_⟩
  unfold main_exit_code
  rw [e2]
  rfl

/-- C5, witness: with an always-failing pipeline and a budget of 3, exactly
3 attempts are made and the exit code is 1. -/
theorem claim_C5_witness :
    (main_retry_loop (fun _ => (false, 0)) false 3).1 = 3 ∧
    (main_retry_loop (fun _ => (false, 0)) false 3).2.1 = false ∧
    main_exit_code (main_retry_loop (fun _ => (false, 0)) false 3) = 1 :=
  claim_C5 (fun _ => (false, 0)) false 3 (fun _ => rfl)

/-- C6, counterexample to the claim as stated: with `maxImages = 1`, one
iteration that observes two distinct googleusercontent candidates adds both
before the once-per-iteration cap check (line 653) runs, so the returned
list has 2 > 1 entries. -/
theorem claim_C6_counterexample :
    ¬ (extract_loop ⟨some 1, false, fun _ => true⟩
        [⟨["https://lh5.googleusercontent.com/a", "https://lh5.googleusercontent.com/b"],
          true, false⟩] initG).image_urls.length ≤ 1 := by
  decide

/-- C6, amended: the cap is only checked once per iteration, after the
iteration's candidates were all processed; a single iteration can add one
URL per image-selector strategy (or arbitrarily many via the script
fallback), so the guarantee is: with cap `m ≥ 1`, once the count reaches
`m` no further iteration starts, and the final count is at most `m - 1`
plus the largest number of candidates one iteration observes. -/
theorem claim_C6_amended :
    ∀ (m L : Nat) (csv : Bool) (w : Nat → Bool) (steps : List GalleryStep),
      1 ≤ m → (∀ st ∈ steps, st.found.length ≤ L) →
      (extract_loop ⟨some m, csv, w⟩ steps initG).image_urls.length ≤ m - 1 + L := by
  intro m L csv w steps hm hL
  exact extract_loop_cap hm steps initG (by simpa [initG] using hm) hL

/-- C6, witness: cap 2, one iteration observing one candidate: the result
stays within the amended bound 2 - 1 + 1. -/
theorem claim_C6_witness :
    (extract_loop ⟨some 2, true, fun _ => true⟩
        [⟨["https://lh5.googleusercontent.com/a"], true, false⟩] initG).image_urls.length ≤
      2 - 1 + 1 :=
  claim_C6_amended 2 1 true (fun _ => true)
    [⟨["https://lh5.googleusercontent.com/a"], true, false⟩] (by decide)
    (by intro st hst; simp at hst; rw [hst]; decide)

/-- C7: for a URL list in which exactly one position's fetch always fails
while every other position's fetch eventually returns a non-empty body,
`download_all_images` still processes the whole batch (N items) and reports
N-1 successes and one failure; the failing item is absorbed as a `False`
result, never an exception. -/
theorem claim_C7 :
    ∀ (fetch : Nat → Nat → Option String) (urls : List String) (dir loc : String)
      (fs : Fs) (j : Nat),
      1 ≤ j → j ≤ urls.length →
      (∀ k, fetch j k = none) →
      (∀ p, 1 ≤ p → p ≤ urls.length → p ≠ j →
        ∃ ct, (tryFetch (fetch p)).1 = some ct ∧ 0 < ct.length) →
      (download_all_images fetch urls dir loc fs).1 = urls.length - 1 ∧
      (download_all_images fetch urls dir loc fs).2.2 = urls.length := by
  intro fetch urls dir loc fs j h1 h2 hj hok
  have hmain := downloadAllAux_one_fail fetch dir loc j hj urls 1 fs
    (fun p hp1 hp2 hp3 => hok p hp1 (by omega) hp3)
  refine ⟨hmain.1 ⟨by omega, by omega⟩, ?_⟩
  exact downloadAllAux_processed fetch dir loc urls 1 fs

/-- C7, witness: a two-URL batch whose first item's fetch always fails:
one success, both items processed. -/
theorem claim_C7_witness :
    (download_all_images (fun i _ => if i = 1 then none else some "c")
        ["u1", "u2"] "d" "L" []).1 = 1 ∧
    (download_all_images (fun i _ => if i = 1 then none else some "c")
        ["u1", "u2"] "d" "L" []).2.2 = 2 := by
  have h := claim_C7 (fun i _ => if i = 1 then none else some "c") ["u1", "u2"] "d" "L" [] 1
    (by decide) (by decide) (fun k => rfl)
    (fun p hp1 hp2 hp3 => by
      have hp2b : p ≤ 2 := by simpa using hp2
      have hp : p = 2 := by omega
      subst hp
      exact ⟨"c", rfl, by decide⟩)
  exact ⟨h.1, h.2⟩

/-- C8: `_sanitize_filename` yields a string with none of the characters
`\/*?:"<>|`, no whitespace at all (each internal run became one `_`), no
leading or trailing period or space, and on the input `"Café: Déjà Vu?"`
it yields `"Café__Déjà_Vu_"`, such a string. -/
theorem claim_C8 :
    ∀ s : String,
      ((sanitize_filename s).data.all fun c => !(isBad c)) = true ∧
      ((sanitize_filename s).data.all fun c => !(pySpace c)) = true ∧
      (∀ (c : Char) (cs : List Char),
        (sanitize_filename s).data = c :: cs → c ≠ '.' ∧ c ≠ ' ') ∧
      (∀ c : Char, (sanitize_filename s).data.getLast? = some c → c ≠ '.' ∧ c ≠ ' ') ∧
      sanitize_filename "Café: Déjà Vu?" = "Café__Déjà_Vu_" := by
  intro s
  refine ⟨?_, ?_, sanitize_head s, sanitize_last s, by decide⟩
  · rw [List.all_eq_true]
    intro c hc
    rw [Bool.not_eq_true']
    exact sanitize_no_bad s c hc
  · rw [List.all_eq_true]
    intro c hc
    rw [Bool.not_eq_true']
    exact sanitize_no_space s c hc

/-- C8, witness: the sanitized form of `" .a b. "` is `"a_b"`, whose first
character is neither a period nor a space. -/
theorem claim_C8_witness : 'a' ≠ '.' ∧ 'a' ≠ ' ' :=
  (claim_C8 " .a b. ").2.2.1 'a' "_b".data (by decide)

/-- C9: `save_url_to_csv` absorbs a write failure into a `False` return
(`True` exactly when the entry was written; nothing propagates), and the
extraction loop's behaviour — the URLs discovered, the index counter, the
error and stagnation counters, hence also termination — is identical under
any two per-append write oracles: a failed ledger append never changes the
run, only the rows that reached the ledger. -/
theorem claim_C9 :
    (∀ w : Bool, save_url_to_csv w = w) ∧
    (∀ (mi : Option Nat) (csv : Bool) (w wB : Nat → Bool) (steps : List GalleryStep),
      (extract_loop ⟨mi, csv, w⟩ steps initG).core =
        (extract_loop ⟨mi, csv, wB⟩ steps initG).core) := by
  constructor
  · intro w
    cases w <;> rfl
  · intro mi csv w wB steps
    exact extract_loop_core steps rfl

/-- C10: filename sanitization is idempotent, so the label sanitized
independently in `create_csv_file`, `download_image` and `main` always
yields the same directory and file names. -/
theorem claim_C10 :
    ∀ s : String, sanitize_filename (sanitize_filename s) = sanitize_filename s :=
  sanitize_idem
